import Mathlib

/-!
Verification of `placeholderPolyfill.js` (stand-alone placeholder polyfill for
legacy browsers).  The development shallowly embeds the script's data model:

* strings are `List Char` (`JsStr`), so that the `className` manipulation done
  by `addClass` / `hasClass` / `removeClass` (string concatenation, the regex
  `(\s|^)className(\s|$)`, `String.replace`, and trimming `/^\s+|\s+$/g`) can
  be modelled character by character;
* input elements are records with the fields the script reads and writes
  (`type`, `value`, `className`, `placeholder`, the `placeholder` attribute,
  the text-selection handlers, and which event handlers have been wired);
* forms carry the custom `beforeOnSubmit` / `afterOnSubmit` closures, which
  are chains built by `addBeforeOnSubmit` / `addAfterOnSubmit`;
* the document is a heap of elements (`Nat`-indexed) plus the DOM order of
  input elements and a heap of forms.

The script targets browsers without `element.classList` (IE8); accordingly the
class helpers are modelled on their non-`classList` fallback branches, which
are the branches that run on the polyfill's target browsers.
-/

/-- Characters treated as whitespace by the JavaScript regex class `\s`
(restricted to the ASCII whitespace characters; class names and class
attributes containing exotic Unicode whitespace are outside the model). -/
def isJsSpace (ch : Char) : Bool :=
  ch = ' ' || ch = '\t' || ch = '\n' || ch = '\r' || ch = '\x0b' || ch = '\x0c'

/-- JavaScript strings, modelled as lists of characters. -/
abbrev JsStr := List Char

/-- `s.replace(/^\s+|\s+$/g, '')`: strip leading and trailing whitespace. -/
def jsTrimBoth (s : JsStr) : JsStr :=
  ((s.dropWhile isJsSpace).reverse.dropWhile isJsSpace).reverse

/-- The trailing boundary `(\s|$)` of the class regex holds at a suffix when
the suffix is empty or starts with whitespace. -/
def boundaryAfter : JsStr → Bool
  | [] => true
  | ch :: _ => isJsSpace ch

/-- Match `className(\s|$)` at the start of `s`: if `c` is a literal prefix of
`s` and the trailing boundary matches, return the remainder of the string
after the matched text (the boundary consumes one whitespace character when
present, as the regex alternative `\s` is tried before `$`). -/
def matchEnd : JsStr → Option JsStr
  | [] => some []
  | ch :: rest => if isJsSpace ch then some rest else none

/-- Try to match the `className(\s|$)` part of `(\s|^)className(\s|$)` at the
start of `s`; `some rem` is the text remaining after the match.  Faithful for
class names without regex metacharacters (the script only ever passes the
literals `placeholder` and `displayNone`). -/
def tryTokenHere (c s : JsStr) : Option JsStr :=
  if c.isPrefixOf s then matchEnd (s.drop c.length) else none

/-- Boolean form of `tryTokenHere`: does `className(\s|$)` match here? -/
def tokenAt (c s : JsStr) : Bool :=
  (tryTokenHere c s).isSome

/-- Scanner for `className.match(new RegExp('(\\s|^)' + className + '(\\s|$)'))`
(hasClass, source line 233).  `prevOk` records whether the current position
satisfies the leading boundary `(\s|^)` (start of string, or the previous
character was whitespace). -/
def hasClassAux (c : JsStr) : JsStr → Bool → Bool
  | [], prevOk => prevOk && tokenAt c []
  | ch :: rest, prevOk =>
    (prevOk && tokenAt c (ch :: rest)) || hasClassAux c rest (isJsSpace ch)

/-- `hasClass` on a raw `className` string (source lines 229-235, fallback
branch): the regex `(\s|^)c(\s|$)` matches somewhere in `cn`. -/
def hasClassStr (cn c : JsStr) : Bool :=
  hasClassAux c cn true

/-- `element.className.replace(regex, ' ')` for the first (leftmost) match of
`(\s|^)c(\s|$)` (source lines 247-248).  `atStart` records whether the scan is
still at index 0 (where the `^` alternative can apply).  At a whitespace
character the `\s` alternative is tried; the `^` alternative after a failed
`\s` at index 0 is omitted because a class name never begins with whitespace.
`none` means the regex does not match (JavaScript then leaves the string
unchanged). -/
def regexRepAux (c : JsStr) : JsStr → Bool → Option JsStr
  | [], atStart =>
    if atStart then
      match tryTokenHere c [] with
      | some rem => some (' ' :: rem)
      | none => none
    else none
  | ch :: rest, atStart =>
    if isJsSpace ch then
      match tryTokenHere c rest with
      | some rem => some (' ' :: rem)
      | none => (regexRepAux c rest false).map (fun s2 => ch :: s2)
    else
      if atStart then
        match tryTokenHere c (ch :: rest) with
        | some rem => some (' ' :: rem)
        | none => (regexRepAux c rest false).map (fun s2 => ch :: s2)
      else
        (regexRepAux c rest false).map (fun s2 => ch :: s2)

/-- Replace the first match of `(\s|^)c(\s|$)` by a single space, leaving the
string unchanged when the regex does not match. -/
def regexReplaceFirstToken (cn c : JsStr) : JsStr :=
  match regexRepAux c cn true with
  | some s2 => s2
  | none => cn

/-- `s.replace(pat, rep)` with a *string* pattern: JavaScript replaces only the
first occurrence (and inserts `rep` at the front when `pat` is empty). -/
def replaceFirst : JsStr → JsStr → JsStr → JsStr
  | s, pat, rep =>
    if pat.isPrefixOf s then rep ++ s.drop pat.length
    else
      match s with
      | [] => []
      | ch :: rest => ch :: replaceFirst rest pat rep

/-- `addClass` on the raw `className` string (source lines 214-221, fallback
branch): when the class is absent, append `' ' + className` and trim. -/
def addClassStr (cn c : JsStr) : JsStr :=
  if hasClassStr cn c then cn else jsTrimBoth (cn ++ ' ' :: c)

/-- `removeClass` on the raw `className` string (source lines 243-251,
fallback branch): when the class is present, replace the first regex match by
a space; then unconditionally delete the first plain-substring occurrence of
the class name and trim (source line 250). -/
def removeClassStr (cn c : JsStr) : JsStr :=
  let cn1 := if hasClassStr cn c then regexReplaceFirstToken cn c else cn
  jsTrimBoth (replaceFirst cn1 c [])

/-- A plain class token: nonempty and whitespace-free.  This is what the
model requires of the tokens inside a `className` attribute, which the
regexes only *match against*. -/
def plainTok (t : JsStr) : Bool :=
  !t.isEmpty && t.all (fun ch => !isJsSpace ch)

/-- The characters that are special in a JavaScript regular expression. -/
def regexSpecial (ch : Char) : Bool :=
  ch = '\\' || ch = '^' || ch = '$' || ch = '.' || ch = '|' || ch = '?'
    || ch = '*' || ch = '+' || ch = '(' || ch = ')' || ch = '['
    || ch = ']' || ch = '\x7b' || ch = '\x7d'

/-- A class-name *argument* that the source splices into
`new RegExp('(\\s|^)' + className + '(\\s|$)')` (lines 233, 247) is modelled
faithfully only when the constructed regex matches it literally: nonempty,
whitespace-free, and free of regex metacharacters.  The script's own
arguments `placeholder` and `displayNone` satisfy this; outside this domain
the source wildcard-matches (for example `.`) or throws a `SyntaxError` (for
example `(`), which the literal model does not reproduce. -/
def litTok (t : JsStr) : Bool :=
  plainTok t && t.all (fun ch => !regexSpecial ch)

/-- Join class tokens with single spaces: the canonical form of a class
attribute. -/
def joinSp : List JsStr → JsStr
  | [] => []
  | [t] => t
  | t :: t2 :: ts => t ++ ' ' :: joinSp (t2 :: ts)

/-- Name of the class used to identify active placeholder polyfills
(source line 28). -/
def placeholderClassName : JsStr := ("placeholder").data

/-- The class used to hide the real password field (source lines 107, 119,
120, 142, 143). -/
def displayNoneClassName : JsStr := ("displayNone").data

/-- An HTML input element, restricted to the state the script reads or
writes.  `placeholder` is the DOM property `element.placeholder`;
`placeholderAttr` models `element.getAttribute('placeholder')`.
`selectionDisabled` records whether `onselectstart` / `onmousedown` have been
set to the text-selection-blocking handlers (source lines 258-275).
`onclickSet` / `onfocusSet` / `onblurSet` record whether the polyfill wired
the corresponding event handler.  `formIdx` models `element.form` (the index
of the owning form, or `none` when the element is outside any form). -/
structure Elem where
  type : JsStr
  value : JsStr
  className : JsStr
  placeholder : JsStr
  placeholderAttr : JsStr
  selectionDisabled : Bool
  onclickSet : Bool
  onfocusSet : Bool
  onblurSet : Bool
  formIdx : Option Nat
deriving DecidableEq

/-- `hasClass(element, className)` (source lines 229-235, fallback branch). -/
def hasClass (element : Elem) (className : JsStr) : Bool :=
  hasClassStr element.className className

/-- `addClass(element, className)` (source lines 214-221, fallback branch). -/
def addClass (element : Elem) (className : JsStr) : Elem :=
  { element with className := addClassStr element.className className }

/-- `removeClass(element, className)` (source lines 243-251, fallback
branch). -/
def removeClass (element : Elem) (className : JsStr) : Elem :=
  { element with className := removeClassStr element.className className }

/-- `activatePlaceholder` (source lines 152-156): show the placeholder text,
mark the element with the `placeholder` class, disable text selection. -/
def activatePlaceholder (element : Elem) : Elem :=
  let element1 := { element with value := element.placeholder }
  let element2 := addClass element1 placeholderClassName
  { element2 with selectionDisabled := true }

/-- `deactivatePlaceholder` (source lines 163-167): clear the value, drop the
`placeholder` marker class, re-enable text selection. -/
def deactivatePlaceholder (element : Elem) : Elem :=
  let element1 := { element with value := [] }
  let element2 := removeClass element1 placeholderClassName
  { element2 with selectionDisabled := false }

/-- `onFocus` (source lines 189-193). -/
def onFocus (element : Elem) : Elem :=
  if hasClass element placeholderClassName then deactivatePlaceholder element
  else element

/-- `onClick` (source lines 176-180): same as `onFocus` unless the element is
already the document's active element.  `isActiveElement` models the
`element != document.activeElement` comparison. -/
def onClick (element : Elem) (isActiveElement : Bool) : Elem :=
  if !isActiveElement then onFocus element else element

/-- `onBlur` (source lines 202-206). -/
def onBlur (element : Elem) : Elem :=
  if element.value = [] then activatePlaceholder element else element

/-- `beforeOnSubmit(element)` (source lines 356-360): clear the value of an
element whose placeholder is active so the placeholder text is not
submitted. -/
def beforeOnSubmit (element : Elem) : Elem :=
  if hasClass element placeholderClassName then { element with value := [] }
  else element

/-- `afterOnSubmit(element)` (source lines 367-371): restore the placeholder
text after submission. -/
def afterOnSubmit (element : Elem) : Elem :=
  if hasClass element placeholderClassName then
    { element with value := element.placeholder }
  else element

/-- `onClickPassword` (source lines 118-122): hide the decoy, reveal the real
password field and focus it (`element.focus()` has no modelled state
effect). -/
def onClickPassword (element placeholderElement : Elem) : Elem × Elem :=
  (removeClass element displayNoneClassName,
   addClass placeholderElement displayNoneClassName)

/-- `onFocusPassword` (source lines 130-132): delegates to
`onClickPassword`. -/
def onFocusPassword (element placeholderElement : Elem) : Elem × Elem :=
  onClickPassword element placeholderElement

/-- `onBlurPassword` (source lines 140-145): when the password field is left
empty, hide it again and reveal the decoy. -/
def onBlurPassword (element placeholderElement : Elem) : Elem × Elem :=
  if element.value = [] then
    (addClass element displayNoneClassName,
     removeClass placeholderElement displayNoneClassName)
  else (element, placeholderElement)

/-- A fresh `document.createElement('input')`: detached, empty fields. -/
def createInput : Elem :=
  { type := ("text").data, value := [], className := [], placeholder := [],
    placeholderAttr := [], selectionDisabled := false, onclickSet := false,
    onfocusSet := false, onblurSet := false, formIdx := none }

/-- Element-level effect of `polyfillPassword` (source lines 87-110): build
the decoy text input (copying the class and placeholder of the password
field, then activating its placeholder), wire the decoy's click/focus
handlers and the password field's blur handler, and hide the password field
with the `displayNone` class.  Returns the updated password element and the
decoy (`none` when the element is not a password field, in which case the
source function does nothing). -/
def polyfillPasswordElems (element : Elem) : Elem × Option Elem :=
  if element.type = ("password").data then
    let placeholderElement0 :=
      { createInput with type := ("text").data,
                         className := element.className,
                         placeholder := element.placeholder }
    let placeholderElement1 := activatePlaceholder placeholderElement0
    let placeholderElement2 :=
      { placeholderElement1 with onclickSet := true, onfocusSet := true }
    let element1 := { element with onblurSet := true }
    let element2 := addClass element1 displayNoneClassName
    (element2, some placeholderElement2)
  else (element, none)

/-- The closures registered with `addBeforeOnSubmit` / `addAfterOnSubmit` are
`function(){beforeOnSubmit(element)}` (resp. `afterOnSubmit`); a chain stores
the heap indices of the captured elements.  `single f` is the closure built
when `existingFunctions` was unset; `cons ex f` runs the previously installed
chain `ex` first and then the new function `f` (source lines 326-331,
343-348). -/
inductive SubmitChain : Type where
  | single : Nat → SubmitChain
  | cons : SubmitChain → Nat → SubmitChain
deriving DecidableEq

/-- The element indices a chain executes, in execution order. -/
def SubmitChain.trace : SubmitChain → List Nat
  | .single f => [f]
  | .cons ex f => ex.trace ++ [f]

/-- Trace of an optional chain (`form.beforeOnSubmit` may be unset). -/
def traceOpt : Option SubmitChain → List Nat
  | none => []
  | some ch2 => ch2.trace

/-- `addBeforeOnSubmit(form, newFunction)` (source lines 323-332): wrap the
existing `form.beforeOnSubmit` (if any) so that it runs before the new
function. -/
def addBeforeOnSubmit (existingFunctions : Option SubmitChain)
    (newFunction : Nat) : SubmitChain :=
  match existingFunctions with
  | none => SubmitChain.single newFunction
  | some fs => SubmitChain.cons fs newFunction

/-- `addAfterOnSubmit(form, newFunction)` (source lines 340-349): same
construction for `form.afterOnSubmit`. -/
def addAfterOnSubmit (existingFunctions : Option SubmitChain)
    (newFunction : Nat) : SubmitChain :=
  match existingFunctions with
  | none => SubmitChain.single newFunction
  | some fs => SubmitChain.cons fs newFunction

/-- The value of `form.onsubmit`: either some unrelated handler that another
script installed, or the custom wrapper the polyfill installs (source lines
307-312). -/
inductive FormHandler : Type where
  | other : Nat → FormHandler
  | customWrapper : FormHandler
deriving DecidableEq

/-- An HTML form, restricted to the state the script reads or writes. -/
structure JsForm where
  id : JsStr
  name : JsStr
  onsubmit : Option FormHandler
  beforeOnSubmit : Option SubmitChain
  afterOnSubmit : Option SubmitChain
  onSubmitIsSet : Bool
deriving DecidableEq

/-- The console message of source lines 297-305.  Note that the `name` branch
of the source (line 301) concatenates `form.id`, not `form.name`. -/
def warningMessage (form : JsForm) : JsStr :=
  let extraInfo : JsStr :=
    if form.id ≠ [] then (" with id `").data ++ form.id ++ ("`").data
    else if form.name ≠ [] then (" with name `").data ++ form.id ++ ("`").data
    else []
  ("Onsubmit event was already set on form").data ++ extraInfo ++
    (". Make sure that all scripts used on this form use the custom `beforeOnSubmit` and `afterOnSubmit` events to ensure that that all functionalities are operational.").data

/-- `setCustomBeforeAndAfterOnSubmitEvents(form)` (source lines 294-315):
when the custom events are present and the wrapper has not been installed
yet, warn if `form.onsubmit` is already occupied, install the wrapper and set
the `onSubmitIsSet` flag.  Returns the updated form together with the console
warnings emitted. -/
def setCustomBeforeAndAfterOnSubmitEvents (form : JsForm) :
    JsForm × List JsStr :=
  if !form.onSubmitIsSet && form.beforeOnSubmit.isSome
      && form.afterOnSubmit.isSome then
    let warnings :=
      if form.onsubmit.isSome then [warningMessage form] else []
    ({ form with onsubmit := some FormHandler.customWrapper,
                 onSubmitIsSet := true }, warnings)
  else (form, [])

/-- The element heap: elements are identified by `Nat` references. -/
abbrev Heap := Nat → Elem

/-- Mutate the element `i` refers to, applying `g` (the heap-level effect of
calling `g` on a captured DOM element reference). -/
def applyElemStep (g : Elem → Elem) (i : Nat) (h : Heap) : Heap :=
  Function.update h i (g (h i))

/-- Run a chain of registered closures over the heap, applying `g` to each
captured element in execution order; also returns the execution order that
actually happened. -/
def runChainT (g : Elem → Elem) : SubmitChain → Heap → Heap × List Nat
  | .single f, h => (applyElemStep g f h, [f])
  | .cons ex f, h =>
    let r := runChainT g ex h
    (applyElemStep g f r.1, r.2 ++ [f])

/-- Run an optional chain (an unset `form.beforeOnSubmit` runs nothing). -/
def runChainTOpt (g : Elem → Elem) : Option SubmitChain → Heap → Heap × List Nat
  | none, h => (h, [])
  | some ch2, h => runChainT g ch2 h

/-- One observable step of the installed `onsubmit` wrapper. -/
inductive SubmitEvent : Type where
  | before : Nat → SubmitEvent
  | submitCall : SubmitEvent
  | after : Nat → SubmitEvent
deriving DecidableEq

/-- Result of triggering the installed `onsubmit` wrapper. -/
structure SubmitResult where
  heap : Heap
  submittedData : Nat → JsStr
  events : List SubmitEvent
  returnValue : Bool

/-- The custom `onsubmit` wrapper installed by
`setCustomBeforeAndAfterOnSubmitEvents` (source lines 307-312): run all
registered `beforeOnSubmit` closures, call `form.submit()` (modelled as a
snapshot of every element's value at that moment), run all registered
`afterOnSubmit` closures, and return `false`. -/
def formOnsubmit (form : JsForm) (h : Heap) : SubmitResult :=
  let rb := runChainTOpt beforeOnSubmit form.beforeOnSubmit h
  let ra := runChainTOpt afterOnSubmit form.afterOnSubmit rb.1
  { heap := ra.1
    submittedData := fun i => (rb.1 i).value
    events := rb.2.map SubmitEvent.before
      ++ SubmitEvent.submitCall :: ra.2.map SubmitEvent.after
    returnValue := false }

/-- The document: the feature-detection result, the element heap, the heap of
forms, the DOM order of input elements (heap references in document order),
the next fresh heap reference for `document.createElement`, and the console
log. -/
structure Doc where
  supported : Bool
  heap : Heap
  forms : Nat → JsForm
  order : List Nat
  nextId : Nat
  log : List JsStr

/-- `placeholderIsSupported()` (source lines 35-37): the feature test
`'placeholder' in document.createElement('input')`, recorded in the
document. -/
def placeholderIsSupported (d : Doc) : Bool :=
  d.supported

/-- `getElementsWithPlaceholders()` (source lines 44-56): walk the input
elements in document order; every element whose `placeholder` property or
attribute is a nonempty string is collected, normalising the property from
the attribute when only the attribute is present. -/
def getElementsWithPlaceholders (d : Doc) : Doc × List Nat :=
  d.order.foldl
    (fun acc id =>
      let element := acc.1.heap id
      if element.placeholder ≠ [] || element.placeholderAttr ≠ [] then
        let element2 :=
          { element with placeholder :=
              if element.placeholder ≠ [] then element.placeholder
              else element.placeholderAttr }
        ({ acc.1 with heap := Function.update acc.1.heap id element2 },
         acc.2 ++ [id])
      else acc)
    (d, [])

/-- The handler wiring of `polyfill` (source lines 67-75). -/
def wireHandlers (element : Elem) : Elem :=
  { element with onclickSet := true, onfocusSet := true, onblurSet := true }

/-- `polyfill(element)` (source lines 63-80) at the document level: activate
the placeholder, wire the click/focus/blur handlers, register the
`beforeOnSubmit` / `afterOnSubmit` closures on `element.form` and install the
custom submit events.  Returns `none` for an element outside any form, where
the source would throw a `TypeError` on `element.form.beforeOnSubmit`. -/
def applyPolyfill (d : Doc) (id : Nat) : Option Doc :=
  let element := d.heap id
  let element2 := wireHandlers (activatePlaceholder element)
  match element.formIdx with
  | none => none
  | some fi =>
    let f := d.forms fi
    let b1 := some (addBeforeOnSubmit f.beforeOnSubmit id)
    let f1 := { f with beforeOnSubmit := b1 }
    let a1 := some (addAfterOnSubmit f1.afterOnSubmit id)
    let f2 := { f1 with afterOnSubmit := a1 }
    let r := setCustomBeforeAndAfterOnSubmitEvents f2
    some { d with heap := Function.update d.heap id element2,
                  forms := Function.update d.forms fi r.1,
                  log := d.log ++ r.2 }

/-- `element.parentNode.insertBefore(placeholderElement, element.nextSibling)`
on the document order: place `newId` immediately after `id`. -/
def insertAfter (order : List Nat) (id newId : Nat) : List Nat :=
  match order with
  | [] => [newId]
  | x :: rest => if x = id then x :: newId :: rest else x :: insertAfter rest id newId

/-- `polyfillPassword(element)` (source lines 87-110) at the document level:
apply the element-level effect, allocate the decoy at a fresh heap reference
and insert it right after the password field.  The decoy's `formIdx` reflects
its DOM position next to the password field. -/
def applyPolyfillPassword (d : Doc) (id : Nat) : Doc :=
  let element := d.heap id
  match polyfillPasswordElems element with
  | (element2, some placeholderElement) =>
    let nid := d.nextId
    let placeholderElement2 := { placeholderElement with formIdx := element.formIdx }
    { d with heap := Function.update (Function.update d.heap id element2)
                       nid placeholderElement2,
             order := insertAfter d.order id nid,
             nextId := nid + 1 }
  | (_, none) => d

/-- Dispatch of the constructor loop (source lines 378-385): password inputs
go through `polyfillPassword`, all others through the default `polyfill`. -/
def polyfillStep (d : Doc) (id : Nat) : Option Doc :=
  if (d.heap id).type = ("password").data then
    some (applyPolyfillPassword d id)
  else applyPolyfill d id

/-- `placeholderPolyfill` (source lines 25-387, constructor at 376-386): when
placeholders are natively supported the script does nothing; otherwise every
input element with a placeholder is polyfilled in document order.  `none`
models a thrown `TypeError` (placeholder input outside any form). -/
def placeholderPolyfill (d : Doc) : Option Doc :=
  if placeholderIsSupported d then some d
  else
    let r := getElementsWithPlaceholders d
    r.2.foldlM polyfillStep r.1

/-- Register a whole list of closures with `addBeforeOnSubmit`, starting from
an existing `form.beforeOnSubmit` value. -/
def registerAllBefore (fs : List Nat) (start : Option SubmitChain) :
    Option SubmitChain :=
  fs.foldl (fun acc f => some (addBeforeOnSubmit acc f)) start

/-- Register a whole list of closures with `addAfterOnSubmit`. -/
def registerAllAfter (fs : List Nat) (start : Option SubmitChain) :
    Option SubmitChain :=
  fs.foldl (fun acc f => some (addAfterOnSubmit acc f)) start

/-- Example: a text input whose placeholder is currently shown. -/
def exActiveElem : Elem :=
  { type := ("text").data, value := ("Your name").data,
    className := ("big placeholder").data, placeholder := ("Your name").data,
    placeholderAttr := ("Your name").data, selectionDisabled := true,
    onclickSet := true, onfocusSet := true, onblurSet := true,
    formIdx := some 0 }

/-- Example: an empty, unwired text input with a placeholder attribute. -/
def exEmptyElem : Elem :=
  { type := ("text").data, value := [], className := ("big").data,
    placeholder := ("Your name").data, placeholderAttr := ("Your name").data,
    selectionDisabled := false, onclickSet := false, onfocusSet := false,
    onblurSet := false, formIdx := some 0 }

/-- Example: a markup-authored element whose class attribute repeats the
marker token `placeholder` three times. -/
def exTripleMarkerElem : Elem :=
  { exActiveElem with
      className := ("placeholder placeholder placeholder").data }

/-- Example: an element whose class attribute is `foo foo foo`. -/
def exFooElem : Elem :=
  { exActiveElem with className := ("foo foo foo").data }

/-- Example: a password input. -/
def exPasswordElem : Elem :=
  { type := ("password").data, value := ("hunter2").data,
    className := ("field").data, placeholder := ("Password").data,
    placeholderAttr := ("Password").data, selectionDisabled := false,
    onclickSet := false, onfocusSet := false, onblurSet := false,
    formIdx := some 0 }

/-- Example: a form with no handlers installed yet. -/
def exBareForm : JsForm :=
  { id := ("login").data, name := [], onsubmit := none,
    beforeOnSubmit := none, afterOnSubmit := none, onSubmitIsSet := false }

/-- Example: a form ready for `setCustomBeforeAndAfterOnSubmitEvents`, with
one registered closure on each custom event. -/
def exReadyForm : JsForm :=
  { exBareForm with beforeOnSubmit := some (SubmitChain.single 0),
                    afterOnSubmit := some (SubmitChain.single 0) }

/-- Example: a form without an `id`, with a `name`, whose `onsubmit` is
already occupied by another script's handler. -/
def exNamedForm : JsForm :=
  { id := [], name := ("myForm").data,
    onsubmit := some (FormHandler.other 0),
    beforeOnSubmit := some (SubmitChain.single 0),
    afterOnSubmit := some (SubmitChain.single 0), onSubmitIsSet := false }

/-- Example heap: reference 0 is the active-placeholder element, every other
reference an empty element. -/
def exHeap : Heap := fun i =>
  if i = 0 then { exActiveElem with className := ("placeholder").data }
  else exEmptyElem

/-- Example document whose browser supports placeholders natively. -/
def exSupportedDoc : Doc :=
  { supported := true, heap := exHeap, forms := fun _ => exBareForm,
    order := [0], nextId := 1, log := [] }

/-- Example document holding one password input, no native support. -/
def exPasswordDoc : Doc :=
  { supported := false, heap := fun _ => exPasswordElem,
    forms := fun _ => exBareForm, order := [0], nextId := 1, log := [] }

/-- Example document holding one empty text input, no native support. -/
def exTextDoc : Doc :=
  { supported := false, heap := fun _ => exEmptyElem,
    forms := fun _ => exBareForm, order := [0], nextId := 1, log := [] }

theorem traceOpt_addBeforeOnSubmit (acc : Option SubmitChain) (f : Nat) :
    traceOpt (some (addBeforeOnSubmit acc f)) = traceOpt acc ++ [f] := by
  cases acc <;> rfl

theorem traceOpt_addAfterOnSubmit (acc : Option SubmitChain) (f : Nat) :
    traceOpt (some (addAfterOnSubmit acc f)) = traceOpt acc ++ [f] := by
  cases acc <;> rfl

theorem registerAllBefore_trace (fs : List Nat) (start : Option SubmitChain) :
    traceOpt (registerAllBefore fs start) = traceOpt start ++ fs := by
  induction fs generalizing start with
  | nil => simp [registerAllBefore]
  | cons f fs ih =>
    show traceOpt (registerAllBefore fs (some (addBeforeOnSubmit start f)))
      = traceOpt start ++ f :: fs
    rw [ih, traceOpt_addBeforeOnSubmit]
    simp

theorem registerAllAfter_trace (fs : List Nat) (start : Option SubmitChain) :
    traceOpt (registerAllAfter fs start) = traceOpt start ++ fs := by
  induction fs generalizing start with
  | nil => simp [registerAllAfter]
  | cons f fs ih =>
    show traceOpt (registerAllAfter fs (some (addAfterOnSubmit start f)))
      = traceOpt start ++ f :: fs
    rw [ih, traceOpt_addAfterOnSubmit]
    simp

theorem runChainT_snd (g : Elem → Elem) (c : SubmitChain) (h : Heap) :
    (runChainT g c h).2 = c.trace := by
  induction c generalizing h with
  | single f => rfl
  | cons ex f ih => simp [runChainT, SubmitChain.trace, ih]

theorem runChainTOpt_snd (g : Elem → Elem) (oc : Option SubmitChain) (h : Heap) :
    (runChainTOpt g oc h).2 = traceOpt oc := by
  cases oc with
  | none => rfl
  | some c => exact runChainT_snd g c h

/-- C8: every call to `addBeforeOnSubmit` (resp. `addAfterOnSubmit`) wraps the
previously registered functions so that the resulting `form.beforeOnSubmit`
(resp. `form.afterOnSubmit`) runs each registered function exactly once, in
registration order, the previously registered ones before the newly added
one; executing the chain performs exactly that order. -/
theorem addOnSubmit_registration_order (fs : List Nat)
    (start : Option SubmitChain) (g : Elem → Elem) (h : Heap) :
    traceOpt (registerAllBefore fs start) = traceOpt start ++ fs
    ∧ traceOpt (registerAllAfter fs start) = traceOpt start ++ fs
    ∧ (runChainTOpt g (registerAllBefore fs start) h).2 = traceOpt start ++ fs := by
  refine ⟨registerAllBefore_trace fs start, registerAllAfter_trace fs start, ?_⟩
  rw [runChainTOpt_snd, registerAllBefore_trace]

/-- C6: when the feature-detection gate reports native placeholder support,
`placeholderPolyfill` changes nothing: no element, no form, no document order,
no log entry. -/
theorem placeholder_polyfill_gate (d : Doc) (hs : d.supported = true) :
    placeholderPolyfill d = some d := by
  simp [placeholderPolyfill, placeholderIsSupported, hs]

theorem placeholder_polyfill_gate_witness :
    placeholderPolyfill exSupportedDoc = some exSupportedDoc :=
  placeholder_polyfill_gate exSupportedDoc rfl

/-- C9: once `setCustomBeforeAndAfterOnSubmitEvents` has run on a form whose
custom events are present, the `onSubmitIsSet` flag is set, and every further
call leaves the form (in particular its `onsubmit`) unchanged and emits no
warning. -/
theorem setCustom_idempotent (form : JsForm)
    (hb : form.beforeOnSubmit.isSome = true)
    (ha : form.afterOnSubmit.isSome = true) :
    (setCustomBeforeAndAfterOnSubmitEvents form).1.onSubmitIsSet = true
    ∧ setCustomBeforeAndAfterOnSubmitEvents
        (setCustomBeforeAndAfterOnSubmitEvents form).1
      = ((setCustomBeforeAndAfterOnSubmitEvents form).1, []) := by
  by_cases hflag : form.onSubmitIsSet
  · constructor
    · simp [setCustomBeforeAndAfterOnSubmitEvents, hflag]
    · simp [setCustomBeforeAndAfterOnSubmitEvents, hflag]
  · simp only [Bool.not_eq_true] at hflag
    constructor
    · simp [setCustomBeforeAndAfterOnSubmitEvents, hflag, hb, ha]
    · simp [setCustomBeforeAndAfterOnSubmitEvents, hflag, hb, ha]

theorem setCustom_idempotent_witness :
    (setCustomBeforeAndAfterOnSubmitEvents exReadyForm).1.onSubmitIsSet = true
    ∧ setCustomBeforeAndAfterOnSubmitEvents
        (setCustomBeforeAndAfterOnSubmitEvents exReadyForm).1
      = ((setCustomBeforeAndAfterOnSubmitEvents exReadyForm).1, []) :=
  setCustom_idempotent exReadyForm rfl rfl

/-- C7 (divergence witness): on a form with an empty `id`, a nonempty `name`
and an occupied `onsubmit`, `setCustomBeforeAndAfterOnSubmitEvents` emits a
warning whose `with name` part interpolates `form.id` (source line 301), so
the form's actual name `myForm` never appears; the occupied handler is
nevertheless replaced by the custom wrapper. -/
theorem setCustom_warning_interpolates_id :
    (setCustomBeforeAndAfterOnSubmitEvents exNamedForm).2
      = [("Onsubmit event was already set on form with name ``. Make sure that all scripts used on this form use the custom `beforeOnSubmit` and `afterOnSubmit` events to ensure that that all functionalities are operational.").data]
    ∧ (setCustomBeforeAndAfterOnSubmitEvents exNamedForm).1.onsubmit
      = some FormHandler.customWrapper
    ∧ exNamedForm.name = ("myForm").data := by
  refine ⟨rfl, rfl, rfl⟩

theorem beforeOnSubmit_valueOnly (e : Elem) :
    beforeOnSubmit e = { e with value := (beforeOnSubmit e).value } := by
  by_cases hm : hasClass e placeholderClassName <;> simp [beforeOnSubmit, hm]

theorem afterOnSubmit_valueOnly (e : Elem) :
    afterOnSubmit e = { e with value := (afterOnSubmit e).value } := by
  by_cases hm : hasClass e placeholderClassName <;> simp [afterOnSubmit, hm]

theorem runChainT_valueOnly (g : Elem → Elem)
    (hg : ∀ e, g e = { e with value := (g e).value })
    (c : SubmitChain) (h : Heap) (i : Nat) :
    (runChainT g c h).1 i = { h i with value := ((runChainT g c h).1 i).value } := by
  induction c generalizing h with
  | single f =>
    simp only [runChainT, applyElemStep]
    by_cases hfi : i = f
    · subst hfi
      rw [Function.update_same]
      exact hg (h i)
    · rw [Function.update_noteq hfi]
  | cons ex f ih =>
    simp only [runChainT, applyElemStep]
    by_cases hfi : i = f
    · subst hfi
      rw [Function.update_same]
      have h1 := hg ((runChainT g ex h).1 i)
      have h2 := ih h
      rw [h1, h2]
    · rw [Function.update_noteq hfi]
      exact ih h

theorem runChainT_className (g : Elem → Elem)
    (hg : ∀ e, g e = { e with value := (g e).value })
    (c : SubmitChain) (h : Heap) (i : Nat) :
    ((runChainT g c h).1 i).className = (h i).className := by
  rw [runChainT_valueOnly g hg c h i]

theorem runChainT_placeholderField (g : Elem → Elem)
    (hg : ∀ e, g e = { e with value := (g e).value })
    (c : SubmitChain) (h : Heap) (i : Nat) :
    ((runChainT g c h).1 i).placeholder = (h i).placeholder := by
  rw [runChainT_valueOnly g hg c h i]

theorem runChainTOpt_valueOnly (g : Elem → Elem)
    (hg : ∀ e, g e = { e with value := (g e).value })
    (oc : Option SubmitChain) (h : Heap) (i : Nat) :
    (runChainTOpt g oc h).1 i
      = { h i with value := ((runChainTOpt g oc h).1 i).value } := by
  cases oc with
  | none => rfl
  | some c => exact runChainT_valueOnly g hg c h i

theorem runChainT_before_marker (c : SubmitChain) (h : Heap) (i : Nat)
    (hi : i ∈ c.trace)
    (hm : hasClassStr (h i).className placeholderClassName = true) :
    ((runChainT beforeOnSubmit c h).1 i).value = [] := by
  induction c generalizing h with
  | single f =>
    simp only [SubmitChain.trace, List.mem_singleton] at hi
    subst hi
    simp only [runChainT, applyElemStep, Function.update_same]
    simp [beforeOnSubmit, hasClass, hm]
  | cons ex f ih =>
    simp only [SubmitChain.trace, List.mem_append, List.mem_singleton] at hi
    simp only [runChainT, applyElemStep]
    by_cases hfi : i = f
    · subst hfi
      rw [Function.update_same]
      have hcl : ((runChainT beforeOnSubmit ex h).1 i).className
          = (h i).className :=
        runChainT_className beforeOnSubmit beforeOnSubmit_valueOnly ex h i
      simp [beforeOnSubmit, hasClass, hcl, hm]
    · rw [Function.update_noteq hfi]
      rcases hi with hi | hi
      · exact ih h hi hm
      · exact absurd hi hfi

theorem runChainT_after_marker (c : SubmitChain) (h : Heap) (i : Nat)
    (hi : i ∈ c.trace)
    (hm : hasClassStr (h i).className placeholderClassName = true) :
    ((runChainT afterOnSubmit c h).1 i).value = (h i).placeholder := by
  induction c generalizing h with
  | single f =>
    simp only [SubmitChain.trace, List.mem_singleton] at hi
    subst hi
    simp only [runChainT, applyElemStep, Function.update_same]
    simp [afterOnSubmit, hasClass, hm]
  | cons ex f ih =>
    simp only [SubmitChain.trace, List.mem_append, List.mem_singleton] at hi
    simp only [runChainT, applyElemStep]
    by_cases hfi : i = f
    · subst hfi
      rw [Function.update_same]
      have hcl : ((runChainT afterOnSubmit ex h).1 i).className
          = (h i).className :=
        runChainT_className afterOnSubmit afterOnSubmit_valueOnly ex h i
      have hpl : ((runChainT afterOnSubmit ex h).1 i).placeholder
          = (h i).placeholder :=
        runChainT_placeholderField afterOnSubmit afterOnSubmit_valueOnly ex h i
      simp [afterOnSubmit, hasClass, hcl, hpl, hm]
    · rw [Function.update_noteq hfi]
      rcases hi with hi | hi
      · exact ih h hi hm
      · exact absurd hi hfi

/-- C1: through the installed `onsubmit` wrapper, the value an element
contributes to the submitted form data is the empty string whenever the
element still carries the `placeholder` marker class: the registered
`beforeOnSubmit` closures clear it before `form.submit()` runs. -/
theorem submit_strips_active_placeholder_value (form : JsForm) (h : Heap)
    (i : Nat) (hreg : i ∈ traceOpt form.beforeOnSubmit)
    (hmark : hasClassStr (h i).className placeholderClassName = true) :
    (formOnsubmit form h).submittedData i = []
    ∧ ((runChainTOpt beforeOnSubmit form.beforeOnSubmit h).1 i).value = [] := by
  cases hb : form.beforeOnSubmit with
  | none => rw [hb] at hreg; exact absurd hreg (by simp [traceOpt])
  | some c =>
    rw [hb] at hreg
    have hv : ((runChainT beforeOnSubmit c h).1 i).value = [] :=
      runChainT_before_marker c h i hreg hmark
    constructor
    · simpa [formOnsubmit, runChainTOpt, hb] using hv
    · simpa [runChainTOpt, hb] using hv

theorem submit_strips_active_placeholder_value_witness :
    (formOnsubmit exReadyForm exHeap).submittedData 0 = [] :=
  (submit_strips_active_placeholder_value exReadyForm exHeap 0 (by decide)
    (by decide)).1

/-- C5: the installed `onsubmit` wrapper executes exactly the registered
`beforeOnSubmit` closures, then `form.submit()`, then the registered
`afterOnSubmit` closures, and returns `false`; an element registered on the
after event that carries the marker class gets its value restored to the
placeholder text, so an element that displayed its placeholder before
submission is in exactly the same state afterwards. -/
theorem onsubmit_wrapper_sequence (form : JsForm) (h : Heap) (i : Nat)
    (hreg : i ∈ traceOpt form.afterOnSubmit)
    (hmark : hasClassStr (h i).className placeholderClassName = true) :
    (formOnsubmit form h).events
      = (traceOpt form.beforeOnSubmit).map SubmitEvent.before
        ++ SubmitEvent.submitCall
          :: (traceOpt form.afterOnSubmit).map SubmitEvent.after
    ∧ (formOnsubmit form h).returnValue = false
    ∧ ((formOnsubmit form h).heap i).value = (h i).placeholder
    ∧ ((h i).value = (h i).placeholder → (formOnsubmit form h).heap i = h i) := by
  have hev : (formOnsubmit form h).events
      = (traceOpt form.beforeOnSubmit).map SubmitEvent.before
        ++ SubmitEvent.submitCall
          :: (traceOpt form.afterOnSubmit).map SubmitEvent.after := by
    simp [formOnsubmit, runChainTOpt_snd]
  set rb := runChainTOpt beforeOnSubmit form.beforeOnSubmit h with hrb
  have hbcl : (rb.1 i).className = (h i).className := by
    rw [runChainTOpt_valueOnly beforeOnSubmit beforeOnSubmit_valueOnly
      form.beforeOnSubmit h i]
  have hbpl : (rb.1 i).placeholder = (h i).placeholder := by
    rw [runChainTOpt_valueOnly beforeOnSubmit beforeOnSubmit_valueOnly
      form.beforeOnSubmit h i]
  cases ha : form.afterOnSubmit with
  | none => rw [ha] at hreg; exact absurd hreg (by simp [traceOpt])
  | some c =>
    rw [ha] at hreg
    have hmark2 : hasClassStr (rb.1 i).className placeholderClassName = true := by
      rw [hbcl]; exact hmark
    have hval : ((runChainT afterOnSubmit c rb.1).1 i).value
        = (rb.1 i).placeholder :=
      runChainT_after_marker c rb.1 i hreg hmark2
    have hheap : (formOnsubmit form h).heap i
        = { h i with value := (h i).placeholder } := by
      have hvo : (runChainT afterOnSubmit c rb.1).1 i
          = { rb.1 i with value := ((runChainT afterOnSubmit c rb.1).1 i).value } :=
        runChainT_valueOnly afterOnSubmit afterOnSubmit_valueOnly c rb.1 i
      have hvo2 : rb.1 i = { h i with value := (rb.1 i).value } :=
        runChainTOpt_valueOnly beforeOnSubmit beforeOnSubmit_valueOnly
          form.beforeOnSubmit h i
      have hfin : (formOnsubmit form h).heap i
          = (runChainT afterOnSubmit c rb.1).1 i := by
        simp [formOnsubmit, runChainTOpt, ha, hrb]
      rw [hfin, hvo, hval, hvo2]
    rw [ha] at hev
    refine ⟨hev, rfl, ?_, ?_⟩
    · rw [hheap]
    · intro hvp
      rw [hheap, ← hvp]

theorem onsubmit_wrapper_sequence_witness :
    (formOnsubmit exReadyForm exHeap).events
      = (traceOpt exReadyForm.beforeOnSubmit).map SubmitEvent.before
        ++ SubmitEvent.submitCall
          :: (traceOpt exReadyForm.afterOnSubmit).map SubmitEvent.after
    ∧ (formOnsubmit exReadyForm exHeap).returnValue = false
    ∧ ((formOnsubmit exReadyForm exHeap).heap 0).value = (exHeap 0).placeholder
    ∧ (formOnsubmit exReadyForm exHeap).heap 0 = exHeap 0 := by
  have h := onsubmit_wrapper_sequence exReadyForm exHeap 0 (by decide) (by decide)
  exact ⟨h.1, h.2.1, h.2.2.1, h.2.2.2 (by decide)⟩

theorem plainTok_ne_nil {t : JsStr} (ht : plainTok t = true) : t ≠ [] := by
  intro hnil
  rw [hnil] at ht
  simp [plainTok] at ht

theorem plainTok_nonspace {t : JsStr} (ht : plainTok t = true) :
    ∀ ch ∈ t, isJsSpace ch = false := by
  intro ch hch
  have := (Bool.and_eq_true _ _).mp ht |>.2
  rw [List.all_eq_true] at this
  simpa using this ch hch

theorem matchEnd_isSome (v : JsStr) : (matchEnd v).isSome = boundaryAfter v := by
  cases v with
  | nil => rfl
  | cons ch rest =>
    simp only [matchEnd, boundaryAfter]
    by_cases hc : isJsSpace ch <;> simp [hc]

theorem tryTokenHere_self (c v : JsStr) :
    tryTokenHere c (c ++ v) = matchEnd v := by
  have hpre : c.isPrefixOf (c ++ v) = true :=
    List.isPrefixOf_iff_prefix.mpr (List.prefix_append c v)
  simp [tryTokenHere, hpre, List.drop_left]

theorem tokenAt_self (c v : JsStr) :
    tokenAt c (c ++ v) = boundaryAfter v := by
  rw [tokenAt, tryTokenHere_self, matchEnd_isSome]

theorem hasClassAux_here {c s : JsStr} (ht : tokenAt c s = true) :
    hasClassAux c s true = true := by
  cases s with
  | nil => simpa [hasClassAux] using ht
  | cons ch rest => simp [hasClassAux, ht]

theorem hasClassAux_sep_token {c : JsStr} (hc : plainTok c = true)
    (u v : JsStr) (hb : boundaryAfter v = true) (pOk : Bool) :
    hasClassAux c (u ++ ' ' :: (c ++ v)) pOk = true := by
  induction u generalizing pOk with
  | nil =>
    simp only [List.nil_append, hasClassAux]
    have h2 : hasClassAux c (c ++ v) (isJsSpace ' ') = true := by
      have : isJsSpace ' ' = true := by decide
      rw [this]
      exact hasClassAux_here (by rw [tokenAt_self, hb])
    rw [h2, Bool.or_true]
  | cons ch u ih =>
    simp only [List.cons_append, hasClassAux, List.append_eq]
    rw [ih (isJsSpace ch), Bool.or_true]

theorem hasClassAux_start_token {c : JsStr} (v : JsStr)
    (hb : boundaryAfter v = true) :
    hasClassAux c (c ++ v) true = true :=
  hasClassAux_here (by rw [tokenAt_self, hb])

theorem reverse_head_nonspace {c : JsStr} (hne : c ≠ [])
    (hw : ∀ ch ∈ c, isJsSpace ch = false) :
    ∃ a t, c.reverse = a :: t ∧ isJsSpace a = false := by
  cases hrev : c.reverse with
  | nil => exact absurd (by simpa using congrArg List.reverse hrev) hne
  | cons a t =>
    refine ⟨a, t, rfl, ?_⟩
    have : a ∈ c.reverse := by rw [hrev]; exact List.mem_cons_self a t
    exact hw a (List.mem_reverse.mp this)

theorem dropWhile_ends_nonspace {c : JsStr} (x : JsStr) (hne : c ≠ [])
    (hw : ∀ ch ∈ c, isJsSpace ch = false) :
    ((x ++ c).reverse.dropWhile isJsSpace).reverse = x ++ c := by
  obtain ⟨a, t, hrev, ha⟩ := reverse_head_nonspace hne hw
  rw [List.reverse_append, hrev, List.cons_append, List.dropWhile_cons,
    if_neg (by rw [ha]; exact Bool.false_ne_true), ← List.cons_append, ← hrev,
    ← List.reverse_append, List.reverse_reverse]

/-- After `addClass`, the class regex matches (for a plain class token). -/
theorem hasClassStr_addClassStr (cn c : JsStr) (hc : plainTok c = true) :
    hasClassStr (addClassStr cn c) c = true := by
  by_cases hh : hasClassStr cn c
  · rw [addClassStr, if_pos hh]; exact hh
  · rw [addClassStr, if_neg hh]
    rw [jsTrimBoth, List.dropWhile_append]
    by_cases he : (cn.dropWhile isJsSpace).isEmpty
    · rw [if_pos he]
      have hws : isJsSpace ' ' = true := by decide
      rw [List.dropWhile_cons, if_pos hws]
      have hcne := plainTok_ne_nil hc
      have hcw := plainTok_nonspace hc
      obtain ⟨a, t, hcc⟩ : ∃ a t, c = a :: t := by
        cases c with
        | nil => exact absurd rfl hcne
        | cons a t => exact ⟨a, t, rfl⟩
      have hna : isJsSpace a = false := hcw a (by rw [hcc]; exact List.mem_cons_self a t)
      rw [hcc, List.dropWhile_cons, if_neg (by rw [hna]; exact Bool.false_ne_true)]
      rw [← hcc]
      have := dropWhile_ends_nonspace ([] : JsStr) hcne hcw
      rw [List.nil_append] at this
      rw [this]
      rw [hasClassStr]
      have hfin := hasClassAux_start_token (c := c) [] rfl
      rwa [List.append_nil] at hfin
    · rw [if_neg he]
      have hcne := plainTok_ne_nil hc
      have hcw := plainTok_nonspace hc
      have hsplit : cn.dropWhile isJsSpace ++ ' ' :: c
          = (cn.dropWhile isJsSpace ++ [' ']) ++ c := by simp
      rw [hsplit, dropWhile_ends_nonspace _ hcne hcw, ← hsplit]
      rw [hasClassStr]
      have hfin := hasClassAux_sep_token hc (cn.dropWhile isJsSpace) [] rfl true
      rwa [List.append_nil] at hfin

/-- C4: `activatePlaceholder` puts the placeholder text into the value, adds
the marker class and disables text selection; it runs at wiring time
(`polyfill`, reflected at the document level by `applyPolyfill`), and `onBlur`
performs exactly the same activation when the value is the empty string while
leaving the element untouched otherwise. -/
theorem placeholder_appears_when_empty (element : Elem) (d : Doc) (id : Nat) :
    (activatePlaceholder element).value = element.placeholder
    ∧ hasClass (activatePlaceholder element) placeholderClassName = true
    ∧ (activatePlaceholder element).selectionDisabled = true
    ∧ (element.value = [] → onBlur element = activatePlaceholder element)
    ∧ (element.value ≠ [] → onBlur element = element)
    ∧ ((d.heap id).formIdx.isSome = true →
        (applyPolyfill d id).map (fun d2 => (d2.heap id).value)
          = some (d.heap id).placeholder
        ∧ (applyPolyfill d id).map
            (fun d2 => hasClass (d2.heap id) placeholderClassName)
          = some true) := by
  have hact : ∀ e : Elem, (activatePlaceholder e).value = e.placeholder := by
    intro e; rfl
  have hcls : ∀ e : Elem,
      hasClass (activatePlaceholder e) placeholderClassName = true := by
    intro e
    show hasClassStr (addClassStr e.className placeholderClassName)
      placeholderClassName = true
    exact hasClassStr_addClassStr e.className placeholderClassName (by decide)
  refine ⟨hact element, hcls element, rfl, ?_, ?_, ?_⟩
  · intro hv; simp [onBlur, hv]
  · intro hv; simp [onBlur, hv]
  · intro hf
    cases hfi : (d.heap id).formIdx with
    | none => rw [hfi] at hf; simp at hf
    | some fi =>
      constructor
      · simp [applyPolyfill, hfi, wireHandlers, hact]
      · simp only [applyPolyfill, hfi, Option.map_some, Function.update_same]
        have : hasClass (wireHandlers (activatePlaceholder (d.heap id)))
            placeholderClassName
            = hasClass (activatePlaceholder (d.heap id)) placeholderClassName := rfl
        simp [this, hcls]

theorem placeholder_appears_when_empty_witness :
    onBlur exEmptyElem = activatePlaceholder exEmptyElem
    ∧ (activatePlaceholder exEmptyElem).value = exEmptyElem.placeholder
    ∧ (applyPolyfill exTextDoc 0).map (fun d2 => (d2.heap 0).value)
      = some (exTextDoc.heap 0).placeholder := by
  have h := placeholder_appears_when_empty exEmptyElem exTextDoc 0
  exact ⟨h.2.2.2.1 rfl, h.1, (h.2.2.2.2.2 (by decide)).1⟩

/-- C2: a polyfilled password input never receives the placeholder text as
its value: `polyfillPassword` and the password event handlers only touch
class names, the placeholder text lives in the decoy text input (created with
`type = 'text'` and activated with the placeholder as its value), the real
password field is hidden with the `displayNone` class, and the decoy is
inserted immediately after the password field; the forms are untouched, so no
submit hook ever reaches the password field. -/
theorem password_placeholder_isolation (element e2 p2 : Elem) (d : Doc)
    (id : Nat) (hpw : element.type = ("password").data)
    (hpd : (d.heap id).type = ("password").data)
    (hfresh : id ≠ d.nextId) :
    (polyfillPasswordElems element).1.value = element.value
    ∧ ((polyfillPasswordElems element).2.map Elem.value)
      = some element.placeholder
    ∧ ((polyfillPasswordElems element).2.map Elem.type) = some (("text").data)
    ∧ hasClass (polyfillPasswordElems element).1 displayNoneClassName = true
    ∧ (onClickPassword e2 p2).1.value = e2.value
    ∧ (onFocusPassword e2 p2).1.value = e2.value
    ∧ (onBlurPassword e2 p2).1.value = e2.value
    ∧ (applyPolyfillPassword d id).order = insertAfter d.order id d.nextId
    ∧ ((applyPolyfillPassword d id).heap id).value = (d.heap id).value
    ∧ ((applyPolyfillPassword d id).heap d.nextId).value
      = (d.heap id).placeholder
    ∧ (applyPolyfillPassword d id).forms = d.forms := by
  refine ⟨?_, ?_, ?_, ?_, rfl, rfl, ?_, ?_, ?_, ?_, ?_⟩
  · simp [polyfillPasswordElems, hpw, addClass]
  · simp [polyfillPasswordElems, hpw, addClass, activatePlaceholder]
  · simp [polyfillPasswordElems, hpw, addClass, activatePlaceholder,
      createInput]
  · simp only [polyfillPasswordElems, hpw, if_pos]
    show hasClassStr (addClassStr element.className displayNoneClassName)
      displayNoneClassName = true
    exact hasClassStr_addClassStr element.className displayNoneClassName
      (by decide)
  · by_cases hv : e2.value = [] <;> simp [onBlurPassword, hv, addClass]
  · simp [applyPolyfillPassword, polyfillPasswordElems, hpd]
  · simp only [applyPolyfillPassword, polyfillPasswordElems, hpd, if_pos]
    rw [Function.update_noteq hfresh, Function.update_same]
    simp [addClass]
  · simp only [applyPolyfillPassword, polyfillPasswordElems, hpd, if_pos]
    rw [Function.update_same]
    rfl
  · simp [applyPolyfillPassword, polyfillPasswordElems, hpd]

theorem password_placeholder_isolation_witness :
    (polyfillPasswordElems exPasswordElem).1.value = exPasswordElem.value
    ∧ ((polyfillPasswordElems exPasswordElem).2.map Elem.value)
      = some exPasswordElem.placeholder
    ∧ hasClass (polyfillPasswordElems exPasswordElem).1 displayNoneClassName
      = true
    ∧ ((applyPolyfillPassword exPasswordDoc 0).heap 0).value
      = (exPasswordDoc.heap 0).value := by
  have h := password_placeholder_isolation exPasswordElem exPasswordElem
    exPasswordElem exPasswordDoc 0 rfl rfl (by decide)
  exact ⟨h.1, h.2.1, h.2.2.2.1, h.2.2.2.2.2.2.2.2.1⟩

theorem occ_of_pre {c Z : JsStr} (h : c <+: Z) : c <:+: Z := by
  obtain ⟨v, hv⟩ := h
  exact ⟨[], v, by simpa using hv⟩

theorem occ_cons_intro {c X : JsStr} (x : Char) (h : c <:+: X) :
    c <:+: x :: X := by
  obtain ⟨u, v, huv⟩ := h
  exact ⟨x :: u, v, by rw [List.cons_append, List.cons_append, huv]⟩

theorem occ_nil {c : JsStr} (h : c <:+: ([] : JsStr)) : c = [] := by
  obtain ⟨u, v, huv⟩ := h
  have := List.append_eq_nil.mp huv
  exact (List.append_eq_nil.mp this.1).2

theorem occ_split_cons {c : JsStr} {x : Char} {X : JsStr} (h : c <:+: x :: X) :
    c <+: x :: X ∨ c <:+: X := by
  obtain ⟨u, v, huv⟩ := h
  cases u with
  | nil =>
    left
    exact ⟨v, by simpa using huv⟩
  | cons y u2 =>
    right
    rw [List.cons_append, List.cons_append] at huv
    have h2 := (List.cons.injEq y _ x X).mp huv
    exact ⟨u2, v, h2.2⟩

theorem pre_length_or_mem {c : JsStr} {m : Char} :
    ∀ {X Y : JsStr}, c <+: X ++ m :: Y → c.length ≤ X.length ∨ m ∈ c := by
  intro X
  induction X generalizing c with
  | nil =>
    intro Y h
    cases c with
    | nil => left; exact Nat.le_refl 0
    | cons y c2 =>
      right
      rw [List.nil_append, List.cons_prefix_cons] at h
      rw [h.1]
      exact List.mem_cons_self m c2
  | cons x X2 ih =>
    intro Y h
    cases c with
    | nil => left; exact Nat.zero_le _
    | cons y c2 =>
      rw [List.cons_append, List.cons_prefix_cons] at h
      rcases ih h.2 with hl | hm
      · left; exact Nat.succ_le_succ hl
      · right; exact List.mem_cons_of_mem y hm

theorem pre_of_pre_append {c X Y : JsStr} (h : c <+: X ++ Y)
    (hl : c.length ≤ X.length) : c <+: X := by
  have h1 : c = (X ++ Y).take c.length := List.prefix_iff_eq_take.mp h
  rw [List.take_append_of_le_length hl] at h1
  rw [h1]
  exact List.take_prefix c.length X

theorem occ_split {c : JsStr} {m : Char} :
    ∀ {X Y : JsStr}, c <:+: X ++ m :: Y → m ∈ c ∨ c <:+: X ∨ c <:+: Y := by
  intro X
  induction X generalizing c with
  | nil =>
    intro Y h
    rw [List.nil_append] at h
    rcases occ_split_cons h with hp | hi
    · cases c with
      | nil => right; left; exact ⟨[], [], rfl⟩
      | cons y c2 =>
        left
        rw [List.cons_prefix_cons] at hp
        rw [hp.1]
        exact List.mem_cons_self m c2
    · right; right; exact hi
  | cons x X2 ih =>
    intro Y h
    rw [List.cons_append] at h
    rcases occ_split_cons h with hp | hi
    · rw [← List.cons_append] at hp
      rcases pre_length_or_mem hp with hl | hm
      · right; left; exact occ_of_pre (pre_of_pre_append hp hl)
      · left; exact hm
    · rcases ih hi with hm | hx | hy
      · left; exact hm
      · right; left; exact occ_cons_intro x hx
      · right; right; exact hy

theorem joinSp_cons {ts : List JsStr} (t : JsStr) (hne : ts ≠ []) :
    joinSp (t :: ts) = t ++ ' ' :: joinSp ts := by
  cases ts with
  | nil => exact absurd rfl hne
  | cons t2 ts2 => rfl

theorem occ_token {c : JsStr} (hcp : plainTok c = true) :
    ∀ ts, (∀ t ∈ ts, plainTok t = true) → c <:+: joinSp ts →
      ∃ t, t ∈ ts ∧ c <:+: t := by
  intro ts
  induction ts with
  | nil =>
    intro _ h
    exact absurd (occ_nil h) (plainTok_ne_nil hcp)
  | cons t ts2 ih =>
    intro hts h
    cases hts2 : ts2 with
    | nil => exact ⟨t, List.mem_cons_self t _, by simpa [hts2, joinSp] using h⟩
    | cons t2 ts3 =>
      rw [hts2] at h ih
      rw [joinSp_cons t (by simp)] at h
      rcases occ_split h with hm | hx | hy
      · have := plainTok_nonspace hcp ' ' hm
        simp [isJsSpace] at this
      · exact ⟨t, List.mem_cons_self t _, hx⟩
      · obtain ⟨t3, ht3, hc3⟩ := ih (fun t4 ht4 => hts t4 (by rw [hts2]; exact List.mem_cons_of_mem t ht4)) hy
        exact ⟨t3, List.mem_cons_of_mem t ht3, hc3⟩

theorem replaceFirst_no_occurrence {pat : JsStr} (rep : JsStr) :
    ∀ {s : JsStr}, ¬ pat <:+: s → replaceFirst s pat rep = s := by
  intro s
  induction s with
  | nil =>
    intro h
    have hpne : pat ≠ [] := by
      intro hp
      exact h (by rw [hp])
    rw [replaceFirst]
    rw [if_neg ?_]
    · intro hpre
      rw [List.isPrefixOf_iff_prefix] at hpre
      exact hpne (List.prefix_nil.mp hpre)
  | cons ch rest ih =>
    intro h
    rw [replaceFirst]
    rw [if_neg ?_]
    · rw [ih (fun hocc => h (occ_cons_intro ch hocc))]
    · intro hpre
      rw [List.isPrefixOf_iff_prefix] at hpre
      exact h (occ_of_pre hpre)

theorem plainTok_head_nonspace {b : Char} {c2 : JsStr}
    (h : plainTok (b :: c2) = true) : isJsSpace b = false :=
  plainTok_nonspace h b (List.mem_cons_self b c2)

theorem plainTok_of_tail {a : Char} {t : JsStr} (h : plainTok (a :: t) = true)
    (hne : t ≠ []) : plainTok t = true := by
  simp only [plainTok, Bool.and_eq_true, List.all_eq_true] at h ⊢
  refine ⟨?_, fun ch hch => h.2 ch (List.mem_cons_of_mem a hch)⟩
  simpa [List.isEmpty_iff] using hne

theorem boundaryAfter_cons (ch : Char) (l : JsStr) :
    boundaryAfter (ch :: l) = isJsSpace ch := rfl

theorem isPrefixOf_cons_nonspace {c : JsStr} (hcp : plainTok c = true)
    {w : Char} (hw : isJsSpace w = true) (rest : JsStr) :
    c.isPrefixOf (w :: rest) = false := by
  cases c with
  | nil => exact absurd rfl (plainTok_ne_nil hcp)
  | cons b c2 =>
    have hb : isJsSpace b = false := plainTok_head_nonspace hcp
    have hbw : (b == w) = false := by
      simp only [beq_eq_false_iff_ne]
      intro hbe
      rw [hbe, hw] at hb
      simp at hb
    simp [List.isPrefixOf, hbw]

theorem tokenAt_ws {c : JsStr} (hcp : plainTok c = true) {w : Char}
    (hw : isJsSpace w = true) (rest : JsStr) :
    tokenAt c (w :: rest) = false := by
  rw [tokenAt, tryTokenHere, isPrefixOf_cons_nonspace hcp hw rest]
  rfl

theorem hasClassAux_ws {c : JsStr} (hcp : plainTok c = true) {w : Char}
    (hw : isJsSpace w = true) (rest : JsStr) (pOk : Bool) :
    hasClassAux c (w :: rest) pOk = hasClassAux c rest true := by
  rw [hasClassAux, tokenAt_ws hcp hw rest, hw, Bool.and_false, Bool.false_or]

theorem hasClassAux_token_skip {c t : JsStr} (rest : JsStr)
    (htp : plainTok t = true) :
    ∀ pOk, hasClassAux c (t ++ rest) pOk
      = ((pOk && tokenAt c (t ++ rest)) || hasClassAux c rest false) := by
  induction t with
  | nil => exact absurd rfl (plainTok_ne_nil htp)
  | cons a t2 ih =>
    intro pOk
    have ha : isJsSpace a = false :=
      plainTok_nonspace htp a (List.mem_cons_self a t2)
    cases ht2 : t2 with
    | nil =>
      rw [List.cons_append, List.nil_append, hasClassAux, ha]
    | cons b t3 =>
      rw [List.cons_append, hasClassAux, ha]
      rw [← ht2]
      have ih2 := ih (plainTok_of_tail htp (by rw [ht2]; simp)) false
      rw [ih2, Bool.false_and, Bool.false_or]

theorem tryTokenHere_ne {c : JsStr} :
    ∀ {t : JsStr} (rest : JsStr), (∀ ch ∈ t, isJsSpace ch = false) →
      (∀ ch ∈ c, isJsSpace ch = false) → boundaryAfter rest = true →
      t ≠ c → tryTokenHere c (t ++ rest) = none := by
  intro t
  induction t generalizing c with
  | nil =>
    intro rest _ hcw hb hne
    cases hc : c with
    | nil => exact absurd hc hne.symm
    | cons b c2 =>
      rw [List.nil_append]
      cases rest with
      | nil => simp [tryTokenHere, List.isPrefixOf]
      | cons w r2 =>
        have hw : isJsSpace w = true := hb
        have hbne : (b == w) = false := by
          simp only [beq_eq_false_iff_ne]
          intro hbe
          have hbw : isJsSpace b = false := hcw b (by rw [hc]; exact List.mem_cons_self b c2)
          rw [hbe, hw] at hbw
          simp at hbw
        simp [tryTokenHere, List.isPrefixOf, hbne]
  | cons a t2 ih =>
    intro rest htw hcw hb hne
    cases hc : c with
    | nil =>
      rw [List.cons_append]
      have ha : isJsSpace a = false := htw a (List.mem_cons_self a t2)
      simp [tryTokenHere, List.isPrefixOf, matchEnd, ha]
    | cons b c2 =>
      by_cases hba : b = a
      · subst hba
        have hred : tryTokenHere (b :: c2) ((b :: t2) ++ rest)
            = tryTokenHere c2 (t2 ++ rest) := by
          simp [tryTokenHere, List.isPrefixOf, List.drop_succ_cons]
        rw [hred]
        refine ih rest (fun ch hch => htw ch (List.mem_cons_of_mem b hch))
          (fun ch hch => hcw ch (by rw [hc]; exact List.mem_cons_of_mem b hch))
          hb ?_
        intro h2
        rw [hc] at hne
        exact hne (by rw [h2])
      · have hbne : (b == a) = false := by simpa [beq_eq_false_iff_ne] using hba
        rw [List.cons_append]
        simp [tryTokenHere, List.isPrefixOf, hbne]

theorem tokenAt_token_ne {t c : JsStr} (rest : JsStr) (htp : plainTok t = true)
    (hcp : plainTok c = true) (hb : boundaryAfter rest = true) (hne : t ≠ c) :
    tokenAt c (t ++ rest) = false := by
  rw [tokenAt,
    tryTokenHere_ne rest (plainTok_nonspace htp) (plainTok_nonspace hcp) hb hne]
  rfl

theorem tokenAt_token_self {c : JsStr} (rest : JsStr)
    (hb : boundaryAfter rest = true) : tokenAt c (c ++ rest) = true := by
  rw [tokenAt_self, hb]

theorem hasClassStr_joinSp {c : JsStr} (hcp : plainTok c = true) :
    ∀ ts, (∀ t ∈ ts, plainTok t = true) →
      (hasClassStr (joinSp ts) c = true ↔ c ∈ ts) := by
  intro ts
  induction ts with
  | nil =>
    intro _
    constructor
    · intro h
      have hta : tokenAt c [] = false := by
        cases hc : c with
        | nil => exact absurd hc (plainTok_ne_nil hcp)
        | cons b c2 => simp [tokenAt, tryTokenHere, List.isPrefixOf]
      rw [hasClassStr] at h
      simp only [hasClassAux, hta, Bool.and_false] at h
      exact absurd h Bool.false_ne_true
    · intro h; cases h
  | cons t ts2 ih =>
    intro hts
    have htp : plainTok t = true := hts t (List.mem_cons_self t ts2)
    cases hts2 : ts2 with
    | nil =>
      rw [joinSp]
      constructor
      · intro h
        by_cases hct : t = c
        · rw [hct]; exact List.mem_cons_self c []
        · have happ : t = t ++ [] := by simp
          rw [hasClassStr, happ, hasClassAux_token_skip [] htp true] at h
          rw [tokenAt_token_ne [] htp hcp rfl hct] at h
          have hnil : hasClassAux c [] false = false := by
            rw [hasClassAux, Bool.false_and]
          rw [hnil, Bool.and_false, Bool.false_or] at h
          exact absurd h Bool.false_ne_true
      · intro h
        rcases List.mem_cons.mp h with hct | hmem
        · rw [hasClassStr, ← hct]
          have hfin := hasClassAux_start_token (c := c) [] rfl
          rwa [List.append_nil] at hfin
        · cases hmem
    | cons t2 ts3 =>
      rw [← hts2]
      rw [joinSp_cons t (by rw [hts2]; simp)]
      have hts3 : ∀ t4 ∈ ts2, plainTok t4 = true :=
        fun t4 ht4 => hts t4 (List.mem_cons_of_mem t ht4)
      have hws : isJsSpace ' ' = true := by decide
      constructor
      · intro h
        rw [hasClassStr, hasClassAux_token_skip _ htp true] at h
        rw [hasClassAux_ws hcp hws _ false] at h
        by_cases hct : t = c
        · rw [hct]; exact List.mem_cons_self c ts2
        · rw [tokenAt_token_ne _ htp hcp (by rw [boundaryAfter_cons]; decide) hct,
            Bool.and_false, Bool.false_or] at h
          exact List.mem_cons_of_mem t ((ih hts3).mp h)
      · intro h
        rcases List.mem_cons.mp h with hct | hmem
        · rw [hasClassStr, hct]
          exact hasClassAux_start_token (' ' :: joinSp ts2)
            (by rw [boundaryAfter_cons]; decide)
        · rw [hasClassStr, hasClassAux_token_skip _ htp true,
            hasClassAux_ws hcp hws _ false]
          have hrec : hasClassAux c (joinSp ts2) true = true := (ih hts3).mpr hmem
          rw [hrec, Bool.or_true]

theorem regexRepAux_nonws {c : JsStr} :
    ∀ (u : JsStr) (rest : JsStr), (∀ ch ∈ u, isJsSpace ch = false) →
      regexRepAux c (u ++ rest) false
        = (regexRepAux c rest false).map (fun s2 => u ++ s2) := by
  intro u
  induction u with
  | nil =>
    intro rest _
    cases hx : regexRepAux c rest false <;> simp [hx]
  | cons a u2 ih =>
    intro rest hu
    have ha : isJsSpace a = false := hu a (List.mem_cons_self a u2)
    rw [List.cons_append]
    rw [show regexRepAux c (a :: (u2 ++ rest)) false
        = (regexRepAux c (u2 ++ rest) false).map (fun s2 => a :: s2) by
      simp [regexRepAux, ha]]
    rw [ih rest (fun ch hch => hu ch (List.mem_cons_of_mem a hch))]
    rw [Option.map_map]
    cases regexRepAux c rest false <;> simp

theorem regexRepAux_ws {c : JsStr} {w : Char} (hw : isJsSpace w = true)
    (rest : JsStr) (atStart : Bool) :
    regexRepAux c (w :: rest) atStart
      = (match tryTokenHere c rest with
         | some rem => some (' ' :: rem)
         | none => (regexRepAux c rest false).map (fun s2 => w :: s2)) := by
  simp [regexRepAux, hw]

theorem regexRepAux_ws_none {c : JsStr} {w : Char} (hw : isJsSpace w = true)
    (rest : JsStr) (atStart : Bool) (hn : tryTokenHere c rest = none) :
    regexRepAux c (w :: rest) atStart
      = (regexRepAux c rest false).map (fun s2 => w :: s2) := by
  rw [regexRepAux_ws hw, hn]

theorem regexRepAux_ws_some {c : JsStr} {w : Char} (hw : isJsSpace w = true)
    {rest rem : JsStr} (hs : tryTokenHere c rest = some rem) (atStart : Bool) :
    regexRepAux c (w :: rest) atStart = some (' ' :: rem) := by
  rw [regexRepAux_ws hw, hs]

theorem regexRepAux_token_skip {t c : JsStr} (rest : JsStr) (atStart : Bool)
    (htp : plainTok t = true) (hcp : plainTok c = true)
    (hb : boundaryAfter rest = true) (hne : t ≠ c) :
    regexRepAux c (t ++ rest) atStart
      = (regexRepAux c rest false).map (fun s2 => t ++ s2) := by
  cases t with
  | nil => exact absurd rfl (plainTok_ne_nil htp)
  | cons a t2 =>
    have ha : isJsSpace a = false := plainTok_head_nonspace htp
    have hnone : tryTokenHere c ((a :: t2) ++ rest) = none :=
      tryTokenHere_ne rest (plainTok_nonspace htp) (plainTok_nonspace hcp)
        hb hne
    have hnw : ∀ ch ∈ t2, isJsSpace ch = false :=
      fun ch hch => plainTok_nonspace htp ch (List.mem_cons_of_mem a hch)
    rw [List.cons_append] at hnone
    cases atStart with
    | true =>
      rw [List.cons_append]
      rw [show regexRepAux c (a :: (t2 ++ rest)) true
          = (regexRepAux c (t2 ++ rest) false).map (fun s2 => a :: s2) by
        simp [regexRepAux, ha, hnone]]
      rw [regexRepAux_nonws t2 rest hnw, Option.map_map]
      cases hx : regexRepAux c rest false <;> simp [hx]
    | false =>
      exact regexRepAux_nonws (a :: t2) rest (plainTok_nonspace htp)

theorem regexRepAux_start_match {c : JsStr} (hcp : plainTok c = true)
    {v rem : JsStr} (hm : matchEnd v = some rem) :
    regexRepAux c (c ++ v) true = some (' ' :: rem) := by
  obtain ⟨b, c2, hc⟩ : ∃ b c2, c = b :: c2 := by
    cases c with
    | nil => exact absurd rfl (plainTok_ne_nil hcp)
    | cons b c2 => exact ⟨b, c2, rfl⟩
  subst hc
  have hb : isJsSpace b = false := plainTok_head_nonspace hcp
  have hself : tryTokenHere (b :: c2) ((b :: c2) ++ v) = some rem := by
    rw [tryTokenHere_self, hm]
  rw [List.cons_append] at hself ⊢
  simp [regexRepAux, hb, hself]

theorem tryTokenHere_joinSp {c : JsStr} (hcp : plainTok c = true) :
    ∀ (as : List JsStr) (rest : JsStr), as ≠ [] →
      (∀ t ∈ as, plainTok t = true ∧ t ≠ c) → boundaryAfter rest = true →
      tryTokenHere c (joinSp as ++ rest) = none := by
  intro as rest hne has hb
  cases as with
  | nil => exact absurd rfl hne
  | cons t2 as2 =>
    have ht2 := has t2 (List.mem_cons_self t2 as2)
    cases has2 : as2 with
    | nil =>
      show tryTokenHere c (t2 ++ rest) = none
      exact tryTokenHere_ne rest (plainTok_nonspace ht2.1)
        (plainTok_nonspace hcp) hb ht2.2
    | cons t3 as3 =>
      rw [joinSp_cons t2 (by simp), List.append_assoc, List.cons_append]
      exact tryTokenHere_ne (' ' :: (joinSp (t3 :: as3) ++ rest))
        (plainTok_nonspace ht2.1) (plainTok_nonspace hcp)
        (by rw [boundaryAfter_cons]; decide) ht2.2

theorem regexRepAux_joinSp_skip {c : JsStr} (hcp : plainTok c = true) :
    ∀ (as : List JsStr) (rest : JsStr) (atStart : Bool), as ≠ [] →
      (∀ t ∈ as, plainTok t = true ∧ t ≠ c) → boundaryAfter rest = true →
      regexRepAux c (joinSp as ++ rest) atStart
        = (regexRepAux c rest false).map (fun s2 => joinSp as ++ s2) := by
  intro as
  induction as with
  | nil => intro rest atStart hne; exact absurd rfl hne
  | cons t as2 ih =>
    intro rest atStart _ has hb
    have ht := has t (List.mem_cons_self t as2)
    cases has2 : as2 with
    | nil =>
      show regexRepAux c (t ++ rest) atStart
        = (regexRepAux c rest false).map (fun s2 => t ++ s2)
      exact regexRepAux_token_skip rest atStart ht.1 hcp hb ht.2
    | cons t3 as3 =>
      subst has2
      rw [joinSp_cons t (by simp), List.append_assoc, List.cons_append]
      rw [regexRepAux_token_skip (' ' :: (joinSp (t3 :: as3) ++ rest)) atStart
        ht.1 hcp (by rw [boundaryAfter_cons]; decide) ht.2]
      rw [regexRepAux_ws_none (by decide) _ false
        (tryTokenHere_joinSp hcp (t3 :: as3) rest (by simp)
          (fun t4 ht4 => has t4 (List.mem_cons_of_mem t ht4)) hb)]
      rw [ih rest false (by simp)
        (fun t4 ht4 => has t4 (List.mem_cons_of_mem t ht4)) hb]
      rw [Option.map_map, Option.map_map]
      cases regexRepAux c rest false with
      | none => rfl
      | some s2 =>
        simp [Function.comp, joinSp_cons t (show (t3 :: as3) ≠ [] by simp)]

theorem joinSp_append {as bs : List JsStr} (hb : bs ≠ []) :
    ∀ (ha : as ≠ []), joinSp (as ++ bs) = joinSp as ++ ' ' :: joinSp bs := by
  induction as with
  | nil => intro ha; exact absurd rfl ha
  | cons a as2 ih =>
    intro _
    by_cases h2 : as2 = []
    · subst h2
      show joinSp (a :: bs) = a ++ ' ' :: joinSp bs
      exact joinSp_cons a hb
    · have hcab : as2 ++ bs ≠ [] := fun hh => h2 (List.append_eq_nil.mp hh).1
      have e1 : joinSp ((a :: as2) ++ bs) = a ++ ' ' :: joinSp (as2 ++ bs) := by
        rw [List.cons_append]; exact joinSp_cons a hcab
      have e2 : joinSp (a :: as2) = a ++ ' ' :: joinSp as2 := joinSp_cons a h2
      rw [e1, ih h2, e2]
      simp

theorem joinSp_head {ts : List JsStr} (hne : ts ≠ [])
    (hts : ∀ t ∈ ts, plainTok t = true) :
    ∃ a s2, joinSp ts = a :: s2 ∧ isJsSpace a = false := by
  cases ts with
  | nil => exact absurd rfl hne
  | cons t ts2 =>
    have htp := hts t (List.mem_cons_self t ts2)
    obtain ⟨a, t0, hat⟩ : ∃ a t0, t = a :: t0 := by
      cases t with
      | nil => exact absurd rfl (plainTok_ne_nil htp)
      | cons a t0 => exact ⟨a, t0, rfl⟩
    have ha : isJsSpace a = false := by
      rw [hat] at htp; exact plainTok_head_nonspace htp
    cases hts2 : ts2 with
    | nil => exact ⟨a, t0, by rw [joinSp, hat], ha⟩
    | cons t2 ts3 =>
      refine ⟨a, t0 ++ ' ' :: joinSp ts2, ?_, ha⟩
      rw [← hts2, joinSp_cons t (by rw [hts2]; simp), hat, List.cons_append]

theorem joinSp_last {ts : List JsStr} (hne : ts ≠ [])
    (hts : ∀ t ∈ ts, plainTok t = true) :
    ∃ x tl, joinSp ts = x ++ tl ∧ tl ≠ []
      ∧ (∀ ch ∈ tl, isJsSpace ch = false) := by
  induction ts with
  | nil => exact absurd rfl hne
  | cons t ts2 ih =>
    have htp := hts t (List.mem_cons_self t ts2)
    cases hts2 : ts2 with
    | nil =>
      exact ⟨[], t, by rw [joinSp, List.nil_append], plainTok_ne_nil htp,
        plainTok_nonspace htp⟩
    | cons t2 ts3 =>
      obtain ⟨x, tl, hx, htl, hw⟩ := ih (by rw [hts2]; simp)
        (fun t4 ht4 => hts t4 (List.mem_cons_of_mem t ht4))
      refine ⟨t ++ ' ' :: x, tl, ?_, htl, hw⟩
      rw [← hts2, joinSp_cons t (by rw [hts2]; simp), hx]
      simp

theorem joinSp_dropWhile {ts : List JsStr}
    (hts : ∀ t ∈ ts, plainTok t = true) :
    (joinSp ts).dropWhile isJsSpace = joinSp ts := by
  by_cases hn : ts = []
  · subst hn; rfl
  · obtain ⟨a, s2, hj, ha⟩ := joinSp_head hn hts
    rw [hj, List.dropWhile_cons, if_neg (by rw [ha]; exact Bool.false_ne_true)]

theorem joinSp_trimRight {ts : List JsStr}
    (hts : ∀ t ∈ ts, plainTok t = true) :
    ((joinSp ts).reverse.dropWhile isJsSpace).reverse = joinSp ts := by
  by_cases hn : ts = []
  · subst hn; rfl
  · obtain ⟨x, tl, hx, htl, hw⟩ := joinSp_last hn hts
    rw [hx]
    exact dropWhile_ends_nonspace x htl hw

theorem jsTrimBoth_joinSp {ts : List JsStr}
    (hts : ∀ t ∈ ts, plainTok t = true) :
    jsTrimBoth (joinSp ts) = joinSp ts := by
  rw [jsTrimBoth, joinSp_dropWhile hts, joinSp_trimRight hts]

theorem first_occurrence_split {c : JsStr} :
    ∀ {ts : List JsStr}, c ∈ ts → ∃ as bs, ts = as ++ c :: bs ∧ c ∉ as := by
  intro ts
  induction ts with
  | nil => intro h; cases h
  | cons t ts2 ih =>
    intro h
    by_cases ht : t = c
    · exact ⟨[], ts2, by rw [ht, List.nil_append], List.not_mem_nil c⟩
    · have h2 : c ∈ ts2 := by
        rcases List.mem_cons.mp h with he | hm
        · exact absurd he.symm ht
        · exact hm
      obtain ⟨as, bs, hsp, hn⟩ := ih h2
      refine ⟨t :: as, bs, by rw [hsp, List.cons_append], ?_⟩
      intro hmem
      rcases List.mem_cons.mp hmem with he | hm
      · exact ht he.symm
      · exact hn hm

theorem regexReplaceFirstToken_some {cn c s2 : JsStr}
    (h : regexRepAux c cn true = some s2) :
    regexReplaceFirstToken cn c = s2 := by
  unfold regexReplaceFirstToken
  rw [h]

theorem matchEnd_ws {w : Char} (hw : isJsSpace w = true) (l : JsStr) :
    matchEnd (w :: l) = some l := by
  simp [matchEnd, hw]

theorem removeClassStr_eq (cn c : JsStr) :
    removeClassStr cn c
      = jsTrimBoth (replaceFirst
          (if hasClassStr cn c then regexReplaceFirstToken cn c else cn)
          c []) := rfl

theorem removeClassStr_joinSp {c : JsStr} (hcp : plainTok c = true)
    (ts : List JsStr) (hts : ∀ t ∈ ts, plainTok t = true)
    (hcount : List.count c ts ≤ 1)
    (hinf : ∀ t ∈ ts, t ≠ c → ¬ c <:+: t) :
    removeClassStr (joinSp ts) c = joinSp (ts.erase c) := by
  have hnocc : ∀ us : List JsStr, (∀ t ∈ us, plainTok t = true) →
      (∀ t ∈ us, t ≠ c) → (∀ t ∈ us, ¬ c <:+: t) → ¬ c <:+: joinSp us := by
    intro us h1 h2 h3 hocc
    obtain ⟨t, ht, hct⟩ := occ_token hcp us h1 hocc
    exact h3 t ht hct
  by_cases hmem : c ∈ ts
  case neg =>
    have hhc : hasClassStr (joinSp ts) c = false := by
      cases hx : hasClassStr (joinSp ts) c
      · rfl
      · exact absurd ((hasClassStr_joinSp hcp ts hts).mp hx) hmem
    have hne2 : ∀ t ∈ ts, t ≠ c := fun t ht he => hmem (he ▸ ht)
    rw [removeClassStr_eq, if_neg (by rw [hhc]; exact Bool.false_ne_true)]
    rw [replaceFirst_no_occurrence []
      (hnocc ts hts hne2 (fun t ht => hinf t ht (hne2 t ht)))]
    rw [jsTrimBoth_joinSp hts, List.erase_of_not_mem hmem]
  case pos =>
    obtain ⟨as, bs, hsplit, hnotin⟩ := first_occurrence_split hmem
    subst hsplit
    have hcbs : c ∉ bs := by
      rw [List.count_append, List.count_cons_self] at hcount
      have hzero : List.count c bs = 0 := by omega
      exact List.count_eq_zero.mp hzero
    have hhc : hasClassStr (joinSp (as ++ c :: bs)) c = true :=
      (hasClassStr_joinSp hcp _ hts).mpr
        (List.mem_append_right as (List.mem_cons_self c bs))
    have herase : (as ++ c :: bs).erase c = as ++ bs := by
      rw [List.erase_append_right (c :: bs) hnotin, List.erase_cons_head]
    have htsas : ∀ t ∈ as, plainTok t = true :=
      fun t ht => hts t (List.mem_append_left _ ht)
    have htsbs : ∀ t ∈ bs, plainTok t = true :=
      fun t ht => hts t (List.mem_append_right _ (List.mem_cons_of_mem c ht))
    have hneas : ∀ t ∈ as, t ≠ c := fun t ht he => hnotin (he ▸ ht)
    have hnebs : ∀ t ∈ bs, t ≠ c := fun t ht he => hcbs (he ▸ ht)
    have hinfas : ∀ t ∈ as, ¬ c <:+: t :=
      fun t ht => hinf t (List.mem_append_left _ ht) (hneas t ht)
    have hinfbs : ∀ t ∈ bs, ¬ c <:+: t :=
      fun t ht => hinf t (List.mem_append_right _ (List.mem_cons_of_mem c ht))
        (hnebs t ht)
    by_cases has : as = []
    · subst has
      simp only [List.nil_append] at hhc herase ⊢
      by_cases hbs : bs = []
      · subst hbs
        rw [herase]
        have hcc : hasClassStr (joinSp [c]) c = true := hhc
        have hrx : regexRepAux c (c ++ []) true = some [' '] :=
          regexRepAux_start_match hcp (rfl : matchEnd [] = some [])
        rw [List.append_nil] at hrx
        have hc1 : regexReplaceFirstToken (joinSp [c]) c = [' '] :=
          regexReplaceFirstToken_some hrx
        rw [removeClassStr_eq, if_pos hcc, hc1]
        have hnsp : ¬ c <:+: [' '] := by
          intro hocc
          have hsh : ([' '] : JsStr) = [] ++ ' ' :: [] := rfl
          rw [hsh] at hocc
          rcases occ_split hocc with hm | hx | hy
          · exact absurd (plainTok_nonspace hcp ' ' hm) (by decide)
          · exact absurd (occ_nil hx) (plainTok_ne_nil hcp)
          · exact absurd (occ_nil hy) (plainTok_ne_nil hcp)
        rw [replaceFirst_no_occurrence [] hnsp]
        rfl
      · rw [herase]
        have htth : tryTokenHere c (joinSp (c :: bs)) = some (joinSp bs) := by
          rw [joinSp_cons c hbs, tryTokenHere_self, matchEnd_ws (by decide)]
        have hrx : regexRepAux c (joinSp (c :: bs)) true
            = some (' ' :: joinSp bs) := by
          rw [joinSp_cons c hbs]
          exact regexRepAux_start_match hcp (matchEnd_ws (by decide) _)
        have hc1 : regexReplaceFirstToken (joinSp (c :: bs)) c
            = ' ' :: joinSp bs := regexReplaceFirstToken_some hrx
        rw [removeClassStr_eq, if_pos hhc, hc1]
        have hrf : replaceFirst (' ' :: joinSp bs) c [] = ' ' :: joinSp bs := by
          rw [replaceFirst]
          rw [if_neg (by
            rw [isPrefixOf_cons_nonspace hcp (by decide) (joinSp bs)]
            exact Bool.false_ne_true)]
          show ' ' :: replaceFirst (joinSp bs) c [] = ' ' :: joinSp bs
          rw [replaceFirst_no_occurrence [] (hnocc bs htsbs hnebs hinfbs)]
        rw [hrf]
        rw [jsTrimBoth, List.dropWhile_cons, if_pos (by decide)]
        rw [joinSp_dropWhile htsbs, joinSp_trimRight htsbs]
    · have hjoin : joinSp (as ++ c :: bs)
          = joinSp as ++ ' ' :: joinSp (c :: bs) :=
        joinSp_append (by simp) has
      by_cases hbs : bs = []
      · subst hbs
        have htth : tryTokenHere c (joinSp [c]) = some [] := by
          show tryTokenHere c c = some []
          have hself := tryTokenHere_self c []
          rw [List.append_nil] at hself
          rw [hself]
          rfl
        have hrx : regexRepAux c (joinSp (as ++ [c])) true
            = some (joinSp as ++ [' ']) := by
          rw [hjoin]
          rw [regexRepAux_joinSp_skip hcp as (' ' :: joinSp [c]) true has
            (fun t ht => ⟨htsas t ht, hneas t ht⟩)
            (by rw [boundaryAfter_cons]; decide)]
          rw [regexRepAux_ws_some (by decide) htth false]
          rfl
        have hc1 : regexReplaceFirstToken (joinSp (as ++ [c])) c
            = joinSp as ++ [' '] := regexReplaceFirstToken_some hrx
        rw [removeClassStr_eq, if_pos hhc, hc1]
        have hnocc2 : ¬ c <:+: (joinSp as ++ [' ']) := by
          intro hocc
          have hsh : joinSp as ++ [' '] = joinSp as ++ ' ' :: [] := rfl
          rw [hsh] at hocc
          rcases occ_split hocc with hm | hx | hy
          · exact absurd (plainTok_nonspace hcp ' ' hm) (by decide)
          · exact hnocc as htsas hneas hinfas hx
          · exact absurd (occ_nil hy) (plainTok_ne_nil hcp)
        rw [replaceFirst_no_occurrence [] hnocc2]
        have htr : jsTrimBoth (joinSp as ++ [' ']) = joinSp as := by
          rw [jsTrimBoth]
          obtain ⟨a, s2, hj, ha⟩ := joinSp_head has htsas
          rw [hj, List.cons_append, List.dropWhile_cons,
            if_neg (by rw [ha]; exact Bool.false_ne_true),
            ← List.cons_append, ← hj]
          rw [List.reverse_append]
          show ((' ' :: (joinSp as).reverse).dropWhile isJsSpace).reverse
            = joinSp as
          rw [List.dropWhile_cons, if_pos (by decide)]
          exact joinSp_trimRight htsas
        rw [htr, herase, List.append_nil]
      · have htth : tryTokenHere c (joinSp (c :: bs)) = some (joinSp bs) := by
          rw [joinSp_cons c hbs, tryTokenHere_self, matchEnd_ws (by decide)]
        have hrx : regexRepAux c (joinSp (as ++ c :: bs)) true
            = some (joinSp as ++ ' ' :: joinSp bs) := by
          rw [hjoin]
          rw [regexRepAux_joinSp_skip hcp as (' ' :: joinSp (c :: bs)) true has
            (fun t ht => ⟨htsas t ht, hneas t ht⟩)
            (by rw [boundaryAfter_cons]; decide)]
          rw [regexRepAux_ws_some (by decide) htth false]
          rfl
        have hc1 : regexReplaceFirstToken (joinSp (as ++ c :: bs)) c
            = joinSp as ++ ' ' :: joinSp bs := regexReplaceFirstToken_some hrx
        rw [removeClassStr_eq, if_pos hhc, hc1]
        have hjoin2 : joinSp as ++ ' ' :: joinSp bs = joinSp (as ++ bs) :=
          (joinSp_append hbs has).symm
        rw [hjoin2]
        have htokens : ∀ t ∈ as ++ bs, plainTok t = true := by
          intro t ht
          rcases List.mem_append.mp ht with h1 | h2
          exacts [htsas t h1, htsbs t h2]
        have hnea2 : ∀ t ∈ as ++ bs, t ≠ c := by
          intro t ht
          rcases List.mem_append.mp ht with h1 | h2
          exacts [hneas t h1, hnebs t h2]
        have hinfa2 : ∀ t ∈ as ++ bs, ¬ c <:+: t := by
          intro t ht
          rcases List.mem_append.mp ht with h1 | h2
          exacts [hinfas t h1, hinfbs t h2]
        rw [replaceFirst_no_occurrence []
          (hnocc (as ++ bs) htokens hnea2 hinfa2)]
        rw [jsTrimBoth_joinSp htokens, herase]

/-- C10 (counterexample to the claim as stated): on an element whose class
attribute repeats the token `foo` three times, `removeClass(element, 'foo')`
leaves `hasClass(element, 'foo')` true: the regex removes one token and the
unconditional substring `replace` of source line 250 removes only one more. -/
theorem removeClass_repeated_token_kept :
    hasClass exFooElem (("foo").data) = true
    ∧ hasClass (removeClass exFooElem (("foo").data)) (("foo").data) = true := by
  decide

/-- C10 (amended): for a class-name argument `c` that is nonempty,
whitespace-free and contains no regex metacharacters (`litTok`, the domain on
which lines 233/247's `new RegExp('(\\s|^)' + className + '(\\s|$)')` matches
the class name literally — the source wildcard-matches or throws on other
arguments), (a) after `addClass(element, c)` the element has class `c`, and
(b) `addClass` on an element that already has class `c` leaves `className`
unchanged; (c) when `element.className` is a single-space-separated list of
nonempty whitespace-free tokens in which `c` occurs at most once and no other
token contains `c` as a substring, `removeClass(element, c)` yields exactly
the space-joined token list with `c` erased — so afterwards `hasClass` is
false and every other token is preserved.  (Without the proviso of (c) the
claim fails, see the counterexample.) -/
theorem class_helpers_canonical (element element2 : Elem) (c : JsStr)
    (ts : List JsStr) (hlit : litTok c = true)
    (hcn : element2.className = joinSp ts)
    (hts : ∀ t ∈ ts, plainTok t = true)
    (hcount : List.count c ts ≤ 1)
    (hinf : ∀ t ∈ ts, t ≠ c → ¬ c <:+: t) :
    hasClass (addClass element c) c = true
    ∧ (hasClass element c = true → addClass element c = element)
    ∧ removeClass element2 c
      = { element2 with className := joinSp (ts.erase c) }
    ∧ hasClass (removeClass element2 c) c = false := by
  have hc : plainTok c = true := ((Bool.and_eq_true _ _).mp hlit).1
  have h1 : hasClass (addClass element c) c = true :=
    hasClassStr_addClassStr element.className c hc
  have h2 : hasClass element c = true → addClass element c = element := by
    intro hh
    show { element with className := addClassStr element.className c }
      = element
    have hh2 : hasClassStr element.className c = true := hh
    rw [addClassStr, if_pos hh2]
  have h3 : removeClass element2 c
      = { element2 with className := joinSp (ts.erase c) } := by
    show { element2 with
        className := removeClassStr element2.className c } = _
    rw [hcn, removeClassStr_joinSp hc ts hts hcount hinf]
  have hmem : c ∉ ts.erase c := by
    intro hmm
    have hz : List.count c (ts.erase c) = 0 := by
      rw [List.count_erase_self]
      omega
    exact (List.count_eq_zero.mp hz) hmm
  have h4 : hasClass (removeClass element2 c) c = false := by
    rw [h3]
    show hasClassStr (joinSp (ts.erase c)) c = false
    have hsub : ∀ t ∈ ts.erase c, plainTok t = true :=
      fun t ht => hts t (List.mem_of_mem_erase ht)
    cases hx : hasClassStr (joinSp (ts.erase c)) c
    · rfl
    · exact absurd ((hasClassStr_joinSp hc _ hsub).mp hx) hmem
  exact ⟨h1, h2, h3, h4⟩

theorem class_helpers_canonical_witness :
    hasClass (addClass exEmptyElem placeholderClassName) placeholderClassName
      = true
    ∧ removeClass exActiveElem placeholderClassName
      = { exActiveElem with className := ("big").data }
    ∧ hasClass (removeClass exActiveElem placeholderClassName)
        placeholderClassName = false := by
  have h := class_helpers_canonical exEmptyElem exActiveElem
    placeholderClassName [("big").data, placeholderClassName]
    (by decide) (by decide) (by decide) (by decide) (by decide)
  exact ⟨h.1, h.2.2.1, h.2.2.2⟩

/-- C3 (counterexample to the claim as stated): an element whose markup class
attribute is `placeholder placeholder placeholder` carries the marker class,
yet after the focus event the marker class is still present: `removeClass`
does not remove every occurrence of the token. -/
theorem onfocus_marker_not_removed :
    hasClass exTripleMarkerElem placeholderClassName = true
    ∧ hasClass (onFocus exTripleMarkerElem) placeholderClassName = true := by
  decide

/-- C3 (amended): for a polyfilled element whose `className` is a
single-space-separated list of nonempty whitespace-free tokens in which the
marker token `placeholder` occurs at most once and is not a substring of any
other token, focusing an element that carries the marker class clears its
value, removes the marker class (leaving exactly the other tokens) and
re-enables text selection; focusing an element without the marker class
changes nothing. -/
theorem onfocus_hides_placeholder (element : Elem) (ts : List JsStr)
    (hcn : element.className = joinSp ts)
    (hts : ∀ t ∈ ts, plainTok t = true)
    (hcount : List.count placeholderClassName ts ≤ 1)
    (hinf : ∀ t ∈ ts, t ≠ placeholderClassName →
      ¬ placeholderClassName <:+: t)
    (hmark : hasClass element placeholderClassName = true) :
    onFocus element
      = { element with value := [],
                       className := joinSp (ts.erase placeholderClassName),
                       selectionDisabled := false }
    ∧ hasClass (onFocus element) placeholderClassName = false
    ∧ (∀ e2 : Elem, hasClass e2 placeholderClassName = false →
        onFocus e2 = e2) := by
  have hfoc : onFocus element = deactivatePlaceholder element := by
    rw [onFocus, if_pos hmark]
  have hdeact : deactivatePlaceholder element
      = { element with
            value := [],
            className := removeClassStr element.className placeholderClassName,
            selectionDisabled := false } := rfl
  have hrm : removeClassStr element.className placeholderClassName
      = joinSp (ts.erase placeholderClassName) := by
    rw [hcn]
    exact removeClassStr_joinSp (by decide) ts hts hcount hinf
  have hmem : placeholderClassName ∉ ts.erase placeholderClassName := by
    intro hmm
    have hz : List.count placeholderClassName
        (ts.erase placeholderClassName) = 0 := by
      rw [List.count_erase_self]
      omega
    exact (List.count_eq_zero.mp hz) hmm
  refine ⟨?_, ?_, ?_⟩
  · rw [hfoc, hdeact, hrm]
  · rw [hfoc, hdeact, hrm]
    show hasClassStr (joinSp (ts.erase placeholderClassName))
      placeholderClassName = false
    have hsub : ∀ t ∈ ts.erase placeholderClassName, plainTok t = true :=
      fun t ht => hts t (List.mem_of_mem_erase ht)
    cases hx : hasClassStr (joinSp (ts.erase placeholderClassName))
        placeholderClassName
    · rfl
    · exact absurd ((hasClassStr_joinSp (by decide) _ hsub).mp hx) hmem
  · intro e2 h2
    rw [onFocus, if_neg (by rw [h2]; exact Bool.false_ne_true)]

theorem onfocus_hides_placeholder_witness :
    onFocus exActiveElem
      = { exActiveElem with value := [], className := ("big").data,
                            selectionDisabled := false }
    ∧ hasClass (onFocus exActiveElem) placeholderClassName = false := by
  have h := onfocus_hides_placeholder exActiveElem
    [("big").data, placeholderClassName]
    (by decide) (by decide) (by decide) (by decide) (by decide)
  exact ⟨h.1, h.2.1⟩
